import Mathlib

/-!
Verification of the `design_metrics.filter` subsystem (rule-based keyword
filtering and labelling) of the design-metrics repository.

The pandas data model is embedded shallowly: a data frame is a column list,
an index (row labels) and a list of rows; cells are strings, lists of
strings, or missing.  The helper `_normalise_text` lives in the
`design_metrics.clean` module, whose source is not available here; it is
modelled from the specification (section 4.1 Text Normalizer together with
the lemma-mode description in section 4.5).
-/

namespace DesignMetrics

/-- A single cell of a data frame: a string value, a list-of-strings value
(as used by the keywords and labels columns), or a missing value
(None/NaN). -/
inductive Cell where
  | str (s : String)
  | strs (l : List String)
  | null
deriving DecidableEq

/-- A row is the list of cells, positionally aligned with the frame's
column list. -/
abbrev Row := List Cell

/-- A pandas DataFrame: ordered column names, the index (row labels, a
default RangeIndex is 0,1,2,...), and the rows. -/
structure Frame where
  columns : List String
  index : List Nat
  rows : List Row
deriving DecidableEq

/-- Well-formedness of a frame: each row has one cell per column and the
index has one label per row.  Every frame built by pandas from records
satisfies this. -/
def Frame.wf (f : Frame) : Bool :=
  f.rows.all (fun r => r.length = f.columns.length) &&
    (f.index.length = f.rows.length)

/-! ### Generic list helpers (first index, boolean-mask filter) -/

/-- Index of the first element satisfying a predicate. -/
def firstIdx {α : Type} (p : α → Bool) : List α → Option Nat
  | [] => none
  | a :: as => if p a then some 0 else (firstIdx p as).map (· + 1)

/-- Filter a list by a boolean mask (pandas `.loc[mask]` row selection). -/
def maskFilter {α : Type} : List α → List Bool → List α
  | [], _ => []
  | _ :: _, [] => []
  | a :: as, b :: bs => if b then a :: maskFilter as bs else maskFilter as bs

/-! ### Text normalisation

`_normalise_text` is imported by the filter module from
`design_metrics.clean`, whose source file is not part of the provided
sources; the definitions below are modelled from the specification. -/

/-- ASCII lower-casing of a character (Python `str.lower` restricted to
ASCII, which covers every string these claims touch). -/
def lowerChar (c : Char) : Char :=
  if 'A' ≤ c && c ≤ 'Z' then Char.ofNat (c.toNat + 32) else c

/-- Characters of the signal set kept by normalisation: lower-case
letters, digits and the hyphen. -/
def keepChar (c : Char) : Bool :=
  ('a' ≤ c && c ≤ 'z') || ('0' ≤ c && c ≤ '9') || c = '-'

/-- Split a character list into whitespace-separated words (Python
`str.split()` with no argument: runs of whitespace separate, no empty
words).  The accumulator holds the current word reversed. -/
def wordsAux : List Char → List Char → List (List Char)
  | [], acc => if acc.isEmpty then [] else [acc.reverse]
  | c :: rest, acc =>
    if c.isWhitespace then
      if acc.isEmpty then wordsAux rest [] else acc.reverse :: wordsAux rest []
    else wordsAux rest (c :: acc)

/-- Python `s.split()`: whitespace-separated tokens of a string. -/
def pySplit (s : String) : List String :=
  (wordsAux s.data []).map (fun w => String.mk w)

/-- Python `sep.join(parts)`. -/
def pyJoin (sep : String) : List String → String
  | [] => ""
  | [x] => x
  | x :: xs => x ++ sep ++ pyJoin sep xs

/-- Does `pre` occur at the start of `l`? -/
def startsWithChars : List Char → List Char → Bool
  | [], _ => true
  | _ :: _, [] => false
  | a :: as, b :: bs => a = b && startsWithChars as bs

/-- Does `needle` occur contiguously anywhere in `hay`? -/
def containsChars (needle : List Char) : List Char → Bool
  | [] => startsWithChars needle []
  | b :: bs => startsWithChars needle (b :: bs) || containsChars needle bs

/-- Python `needle in haystack` on strings (substring containment; the
empty needle is contained in everything). -/
def pyInStr (needle hay : String) : Bool :=
  containsChars needle.data hay.data

/-- Does `l` end with `suffix`? -/
def endsWithChars (l suffix : List Char) : Bool :=
  startsWithChars suffix.reverse l.reverse

/-- Python `str.strip()`: drop leading and trailing whitespace. -/
def pyStrip (s : String) : String :=
  String.mk (((s.data.dropWhile Char.isWhitespace).reverse.dropWhile
    Char.isWhitespace).reverse)

/-- Remove `suffix` from the end of `token` provided the remaining stem
keeps length at least 3; otherwise refuse. -/
def stripSuffix (token suffix : String) : Option String :=
  if endsWithChars token.data suffix.data &&
      decide (3 ≤ token.data.length - suffix.data.length) then
    some (String.mk (token.data.take (token.data.length - suffix.data.length)))
  else none

/-- Modelled from the spec: `lemmatise(token)` of the missing
`design_metrics.clean` module removes the first of the inflectional
suffixes ing, ed, es, s whose removal leaves a stem of length at least 3;
otherwise the token is returned unchanged (spec section 4.1). -/
def lemmatise (token : String) : String :=
  match stripSuffix token "ing" with
  | some s => s
  | none =>
    match stripSuffix token "ed" with
    | some s => s
    | none =>
      match stripSuffix token "es" with
      | some s => s
      | none =>
        match stripSuffix token "s" with
        | some s => s
        | none => token

/-- Modelled from the spec: string-level `_normalise_text` of the missing
`design_metrics.clean` module.  Per spec section 4.1 it casefolds, strips,
collapses internal whitespace and removes characters outside the signal
set (letters, digits, hyphen); per section 4.5 the lemma matching mode
sees lemmatized tokens although the filter module only ever applies
`_normalise_text`, so each token is also mapped to its lemmatized form
here. -/
def normalise_string (s : String) : String :=
  let cleaned := (s.data.map lowerChar).filter
    (fun c => keepChar c || c.isWhitespace)
  pyJoin " " ((wordsAux cleaned []).map (fun w => lemmatise (String.mk w)))

/-- Modelled from the spec: `_normalise_text` on a cell.  Missing values
become the empty string (spec section 4.1, never raising); a list-valued
cell is normalised as its space-joined elements, which coincides with
Python stringification followed by punctuation removal. -/
def normalise_text : Cell → String
  | .null => ""
  | .str s => normalise_string s
  | .strs l => normalise_string (pyJoin " " l)

/-! ### Frame operations -/

/-- Position of a column name in a column list. -/
def colIdx (cols : List String) (c : String) : Option Nat :=
  firstIdx (fun x => x = c) cols

/-- The cell of a row at a named column, if the column and the cell
exist. -/
def getCellRow (cols : List String) (row : Row) (c : String) : Option Cell :=
  (colIdx cols c).bind (fun i => row[i]?)

/-- Python `row.get(column, "")` on a pandas row: the cell at the column,
or the empty string when the frame has no such column. -/
def rowGet (f : Frame) (row : Row) (c : String) : Cell :=
  (getCellRow f.columns row c).getD (.str "")

/-- `papers.iloc[0:0]`: the empty slice, keeping the columns. -/
def iloc_empty (f : Frame) : Frame :=
  ⟨f.columns, [], []⟩

/-- `papers.loc[mask]` where the mask is `papers.apply(pred, axis=1)`:
keep the rows (and their index labels) on which `pred` holds. -/
def filterFrame (f : Frame) (pred : Row → Bool) : Frame :=
  let mask := f.rows.map pred
  ⟨f.columns, maskFilter f.index mask, maskFilter f.rows mask⟩

/-- `frame[c] = [v, v, ...]`: assign a column holding the same value in
every row; an existing column is overwritten in place, a new column is
appended at the end. -/
def setColumnConst (f : Frame) (c : String) (v : Cell) : Frame :=
  match colIdx f.columns c with
  | some i => ⟨f.columns, f.index, f.rows.map (fun r => r.set i v)⟩
  | none => ⟨f.columns ++ [c], f.index, f.rows.map (fun r => r ++ [v])⟩

/-- `frame.at[label, c]`: the cell at the row with the given index label
(first occurrence) and the named column. -/
def atGet (f : Frame) (label : Nat) (c : String) : Cell :=
  match firstIdx (fun x => x = label) f.index with
  | some q => rowGet f (f.rows.getD q []) c
  | none => .str ""

/-- `frame.at[label, c] = v`: replace the cell at the row with the given
index label (first occurrence) and the named column. -/
def atSet (f : Frame) (label : Nat) (c : String) (v : Cell) : Frame :=
  match firstIdx (fun x => x = label) f.index, colIdx f.columns c with
  | some q, some i => ⟨f.columns, f.index, f.rows.set q ((f.rows.getD q []).set i v)⟩
  | _, _ => f

/-! ### The three matching strategies (`_SubstringMatcher`, `_LemmaMatcher`,
`_MinimumMatchMatcher`) -/

/-- `_BaseMatcher.__init__`: keep only the non-empty terms. -/
def base_terms (terms : List String) : List String :=
  terms.filter (fun t => t ≠ "")

/-- The haystack string of a row: the normalised text of each searchable
column joined with single spaces. -/
def row_text (f : Frame) (row : Row) (cols : List String) : String :=
  pyJoin " " (cols.map (fun c => normalise_text (rowGet f row c)))

/-- `_SubstringMatcher.matches`: some term occurs as a substring of the
joined normalised text. -/
def substring_matches (ts : List String) (f : Frame) (row : Row)
    (cols : List String) : Bool :=
  ts.any (fun t => pyInStr t (row_text f row cols))

/-- `_LemmaMatcher.matches`: the token set is the union over the columns
of the whitespace-split normalised text; some term is a member. -/
def lemma_matches (ts : List String) (f : Frame) (row : Row)
    (cols : List String) : Bool :=
  let haystackTerms := (cols.map (fun c => pySplit (normalise_text (rowGet f row c)))).flatten
  ts.any (fun t => haystackTerms.contains t)

/-- The count in `_MinimumMatchMatcher.matches`: how many of the term
entries occur as substrings of the joined normalised text (entries are
counted with multiplicity, as in the source). -/
def match_count (ts : List String) (f : Frame) (row : Row)
    (cols : List String) : Nat :=
  (ts.filter (fun t => pyInStr t (row_text f row cols))).length

/-- `_MinimumMatchMatcher.__init__`: the effective threshold
`max(1, min_match or len(self._terms))` — Python `or` treats `None` and
`0` as the same, falling back to the term count. -/
def effective_min_match (ts : List String) (mm : Option Int) : Int :=
  max 1 (match mm with
    | some m => if m = 0 then (ts.length : Int) else m
    | none => (ts.length : Int))

/-- `_MinimumMatchMatcher.matches`. -/
def minimum_match_matches (ts : List String) (mm : Option Int) (f : Frame)
    (row : Row) (cols : List String) : Bool :=
  decide (effective_min_match ts mm ≤ (match_count ts f row cols : Int))

/-! ### Column resolution and `by_keywords` -/

/-- The errors the filter module raises (both are `ValueError` in the
source; they are distinguished here by their message). -/
inductive FilterError where
  | noSearchableColumns
  | unsupportedMode
deriving DecidableEq

/-- `_resolve_columns`: an explicit column list is filtered to the
columns that exist and wins when usable; otherwise the default order
title, abstract, keywords, summary is filtered to the existing columns,
and if none remain the operation fails. -/
def resolve_columns (papers : Frame) (columns : Option (List String)) :
    Except FilterError (List String) :=
  let fallback :=
    let resolved := ["title", "abstract", "keywords", "summary"].filter
      (fun c => papers.columns.contains c)
    if resolved.isEmpty then Except.error FilterError.noSearchableColumns
    else Except.ok resolved
  match columns with
  | some cols =>
    let resolved := cols.filter (fun c => papers.columns.contains c)
    if resolved.isEmpty then fallback else Except.ok resolved
  | none => fallback

/-- `by_keywords(papers, terms, *, mode, columns, min_match)`: row subset
satisfying the keyword constraints, following the source line by line
(empty terms short-circuit, column resolution, blank-term filtering and
normalisation, matcher dispatch, row mask, copy of the selection). -/
def by_keywords (papers : Frame) (terms : List String) (mode : String)
    (columns : Option (List String)) (min_match : Option Int) :
    Except FilterError Frame :=
  if terms.isEmpty then Except.ok (iloc_empty papers) else
    match resolve_columns papers columns with
    | Except.error e => Except.error e
    | Except.ok search_columns =>
      let normalised_terms :=
        (terms.filter (fun t => pyStrip t ≠ "")).map normalise_string
      if normalised_terms.isEmpty then Except.ok (iloc_empty papers) else
      if mode = "lemma" then
        Except.ok (filterFrame papers
          (fun row => lemma_matches (base_terms normalised_terms) papers row search_columns))
      else if mode = "minmatch" then
        Except.ok (filterFrame papers
          (fun row => minimum_match_matches (base_terms normalised_terms) min_match papers row search_columns))
      else if mode = "substring" then
        Except.ok (filterFrame papers
          (fun row => substring_matches (base_terms normalised_terms) papers row search_columns))
      else Except.error FilterError.unsupportedMode

/-! ### Rule definitions (`_Rule`, `_parse_rules`) -/

/-- A parsed YAML/JSON document value, as consumed by `label_by_rules`
when called with an already-parsed structure. -/
inductive Yaml where
  | null
  | str (s : String)
  | int (n : Int)
  | list (items : List Yaml)
  | map (entries : List (String × Yaml))

mutual

/-- Python `repr` of a document value (used by `str` on non-string
values: lists and mappings render with their punctuation, `None` renders
as the word None). -/
def pyRepr : Yaml → String
  | .null => "None"
  | .str s => "\x27" ++ s ++ "\x27"
  | .int n => toString n
  | .list items => "[" ++ pyReprList items ++ "]"
  | .map entries => "\x7b" ++ pyReprMap entries ++ "\x7d"

/-- Comma-joined `repr`s of list items. -/
def pyReprList : List Yaml → String
  | [] => ""
  | [y] => pyRepr y
  | y :: ys => pyRepr y ++ ", " ++ pyReprList ys

/-- Comma-joined `repr`s of mapping entries. -/
def pyReprMap : List (String × Yaml) → String
  | [] => ""
  | [kv] => "\x27" ++ kv.1 ++ "\x27: " ++ pyRepr kv.2
  | kv :: kvs => "\x27" ++ kv.1 ++ "\x27: " ++ pyRepr kv.2 ++ ", " ++ pyReprMap kvs

end

/-- Python `str` of a document value: strings render as themselves,
everything else via `repr`. -/
def pyStr : Yaml → String
  | .str s => s
  | y => pyRepr y

/-- `entry.get(key)` on a mapping. -/
def mapGet (entries : List (String × Yaml)) (k : String) : Option Yaml :=
  match entries with
  | [] => none
  | (k', v) :: rest => if k' = k then some v else mapGet rest k

/-- The terms contributed by one of the keys terms/any/all: a string is
appended as-is, an iterable extends with the stringified items (iterating
a mapping yields its keys), anything else contributes nothing. -/
def termsFrom : Option Yaml → List String
  | some (.str s) => [s]
  | some (.list items) => items.map pyStr
  | some (.map kvs) => kvs.map (fun kv => kv.1)
  | _ => []

/-- All raw terms of a rule entry, gathered from the keys terms, any and
all in that order. -/
def entryTerms (entries : List (String × Yaml)) : List String :=
  termsFrom (mapGet entries "terms") ++ termsFrom (mapGet entries "any") ++
    termsFrom (mapGet entries "all")

/-- The columns of a rule entry: a non-string iterable gives the
stringified items, anything else gives no explicit columns. -/
def entryColumns (entries : List (String × Yaml)) : Option (List String) :=
  match mapGet entries "columns" with
  | some (.list items) => some (items.map pyStr)
  | some (.map kvs) => some (kvs.map (fun kv => kv.1))
  | _ => none

/-- ASCII lower-casing of a string (Python `str.lower`). -/
def pyLower (s : String) : String :=
  String.mk (s.data.map lowerChar)

/-- The mode and min-match of a rule entry: an explicit integer
`min_match` is taken as-is; otherwise `match: "all"` switches a lemma
mode to minmatch and sets the minimum to the term count. -/
def modeAndMin (entries : List (String × Yaml)) (terms : List String) :
    String × Option Int :=
  let mode0 := pyLower (pyStr ((mapGet entries "mode").getD (.str "lemma")))
  match mapGet entries "min_match" with
  | some (.int m) => (mode0, some m)
  | _ =>
    let matchType := pyLower (pyStr ((mapGet entries "match").getD (.str "any")))
    (if matchType = "all" && mode0 = "lemma" then "minmatch" else mode0,
     if matchType = "all" then some ((terms.length : Int)) else none)

/-- A parsed rule (`_Rule`). -/
structure Rule where
  label : String
  terms : List String
  mode : String
  columns : Option (List String)
  min_match : Option Int
deriving DecidableEq

/-- The loop body of `_parse_rules`: a non-mapping entry, a blank label
or an empty usable-term list make the entry be skipped (`continue`). -/
def parse_entry : Yaml → Option Rule
  | .map entries =>
    let label := pyStrip (pyStr ((mapGet entries "label").getD (.str "")))
    if label = "" then none else
      let terms := (entryTerms entries).filter (fun t => pyStrip t ≠ "")
      if terms.isEmpty then none else
        let mm := modeAndMin entries terms
        some ⟨label, terms, mm.1, entryColumns entries, mm.2⟩
  | _ => none

/-- The sequence of rule entries held by the parsed document: a mapping
contributes its rules key (missing key: no entries), anything else is
the sequence itself. -/
def rulesContainer : Yaml → Yaml
  | .map entries => (mapGet entries "rules").getD (.list [])
  | y => y

/-- Iterating the rule container (`for entry in parsed_rules or []`):
falsy containers yield nothing, a list its items, a string its
characters, a mapping its keys.  A truthy non-iterable container raises
TypeError in Python and lies outside the modelled domain. -/
def entriesOf : Yaml → List Yaml
  | .list items => items
  | .null => []
  | .str s => s.data.map (fun c => .str (String.mk [c]))
  | .map entries => entries.map (fun kv => .str kv.1)
  | .int _ => []

/-- `_parse_rules` on an already-parsed rules document. -/
def parse_rules (y : Yaml) : List Rule :=
  (entriesOf (rulesContainer y)).filterMap parse_entry

/-! ### Sorted label sets (`sorted(set(...))`) -/

/-- Code-point comparison of strings (Python string `<=`). -/
def charsLe : List Char → List Char → Bool
  | [], _ => true
  | _ :: _, [] => false
  | a :: as, b :: bs => if a = b then charsLe as bs else decide (a < b)

/-- Python `a <= b` on strings. -/
def strLeB (a b : String) : Bool :=
  charsLe a.data b.data

/-- The relation label lists are sorted by (Python string comparison). -/
def strLe (a b : String) : Prop := strLeB a b = true

instance : DecidableRel strLe := fun a b => by
  unfold strLe
  infer_instance

/-- Python `sorted(set(l))`: the distinct elements in ascending
code-point order. -/
def pySortedSet (l : List String) : List String :=
  List.insertionSort strLe l.dedup

/-! ### `label_by_rules` -/

/-- The labels stored in a cell of the label column (always a
list-of-strings cell in every reachable state). -/
def cellLabels : Cell → List String
  | .strs l => l
  | _ => []

/-- One `frame.at[row_index, label_column]` update of the labelling loop:
add the rule label to the existing label set of the row and store the
sorted result. -/
def updLabel (lc lab : String) (fr : Frame) (label : Nat) : Frame :=
  atSet fr label lc (.strs (pySortedSet (lab :: cellLabels (atGet fr label lc))))

/-- Apply one rule: run `by_keywords` on the current frame and fold the
label update over the index of the matched subset (an empty subset is
skipped, which the fold does on its own).  Also returns the matched
index labels. -/
def apply_rule (lc : String) (fr : Frame) (rule : Rule) :
    Except FilterError (Frame × List Nat) :=
  (by_keywords fr rule.terms rule.mode rule.columns rule.min_match).map
    (fun subset => (subset.index.foldl (updLabel lc rule.label) fr, subset.index))

/-- The rule loop of `label_by_rules`, keeping the trace of matched index
labels of each rule. -/
def apply_rules_aux (lc : String) : Frame → List Rule →
    Except FilterError (Frame × List (List Nat))
  | fr, [] => Except.ok (fr, [])
  | fr, rule :: rest =>
    match apply_rule lc fr rule with
    | Except.error e => Except.error e
    | Except.ok (fr1, idxs) =>
      match apply_rules_aux lc fr1 rest with
      | Except.error e => Except.error e
      | Except.ok (fr2, trace) => Except.ok (fr2, idxs :: trace)

/-- The frame `label_by_rules` starts from: a copy of the papers with the
label column set to one fresh empty list per row. -/
def init_labels (papers : Frame) (lc : String) : Frame :=
  setColumnConst papers lc (.strs [])

/-- `label_by_rules` on an explicit rule list. -/
def apply_rules (papers : Frame) (rules : List Rule) (lc : String) :
    Except FilterError Frame :=
  (apply_rules_aux lc (init_labels papers lc) rules).map (fun p => p.1)

/-- `label_by_rules` together with the trace of matched index labels per
rule. -/
def label_by_rules_aux (papers : Frame) (rulesYaml : Yaml) (lc : String) :
    Except FilterError (Frame × List (List Nat)) :=
  apply_rules_aux lc (init_labels papers lc) (parse_rules rulesYaml)

/-- `label_by_rules(papers, rules_yaml, *, label_column)`. -/
def label_by_rules (papers : Frame) (rulesYaml : Yaml) (lc : String) :
    Except FilterError Frame :=
  (label_by_rules_aux papers rulesYaml lc).map (fun p => p.1)

/-! ### Object-level embedding for the mutation claim

To state that the functions never mutate the caller's frame, frames are
placed on an explicit heap of frame objects addressed by allocation
order; every pandas operation that creates a new object allocates, and
every in-place mutation writes through the owning object's address. -/

/-- The heap of frame objects; an address is a position. -/
abbrev Heap := List Frame

/-- Allocate a fresh frame object, returning its address. -/
def alloc (h : Heap) (f : Frame) : Heap × Nat :=
  (h ++ [f], h.length)

/-- Overwrite the frame object at an address. -/
def hSet (h : Heap) (i : Nat) (f : Frame) : Heap :=
  h.set i f

/-- `by_keywords` at the object level: the input frame is only read; the
returned frame (`papers.loc[mask].copy()`) is a fresh object. -/
def by_keywords_heap (h : Heap) (pid : Nat) (terms : List String)
    (mode : String) (columns : Option (List String)) (min_match : Option Int) :
    Except FilterError (Heap × Nat) :=
  let papers := (h.get? pid).getD ⟨[], [], []⟩
  (by_keywords papers terms mode columns min_match).map (fun res => alloc h res)

/-- The rule loop of `label_by_rules` at the object level: each iteration
reads the working frame, allocates the subset returned by `by_keywords`,
and writes the label updates back through the working frame's address. -/
def apply_rules_heap (lc : String) (fid : Nat) :
    List Rule → Heap → Except FilterError Heap
  | [], st => Except.ok st
  | rule :: rest, st =>
    let fr := (st.get? fid).getD ⟨[], [], []⟩
    match by_keywords fr rule.terms rule.mode rule.columns rule.min_match with
    | Except.error e => Except.error e
    | Except.ok subset =>
      let st1 := (alloc st subset).1
      let st2 := hSet st1 fid (subset.index.foldl (updLabel lc rule.label) fr)
      apply_rules_heap lc fid rest st2

/-- `label_by_rules` at the object level: `frame = papers.copy()`
allocates the working object, the label column is initialised in place on
it, and the rule loop mutates only it. -/
def label_by_rules_heap (h : Heap) (pid : Nat) (rulesYaml : Yaml)
    (lc : String) : Except FilterError (Heap × Nat) :=
  let papers := (h.get? pid).getD ⟨[], [], []⟩
  let rules := parse_rules rulesYaml
  let allocd := alloc h papers
  let h2 := hSet allocd.1 allocd.2 (init_labels papers lc)
  (apply_rules_heap lc allocd.2 rules h2).map (fun hf => (hf, allocd.2))

/-! ### Auxiliary predicates used in the statements of the claims -/

/-- The claim's three skip conditions for a rule entry: not a mapping, no
usable (non-blank) label after stringification, or zero usable terms
after filtering blank entries. -/
def bad_entry : Yaml → Bool
  | .map entries =>
    (pyStrip (pyStr ((mapGet entries "label").getD (.str ""))) = "") ||
      ((entryTerms entries).filter (fun t => pyStrip t ≠ "")).isEmpty
  | _ => true

/-- Is the optional value an explicit integer? (`isinstance(min_match, int)`.) -/
def isIntOpt : Option Yaml → Bool
  | some (.int _) => true
  | _ => false

/-- Follows the claim's words, for comparison with the source semantics:
the number of DISTINCT terms that appear (substring semantics) in the
concatenated normalised text of the searchable columns. -/
def spec_distinct_match_count (ts : List String) (f : Frame) (row : Row)
    (cols : List String) : Nat :=
  (ts.dedup.filter (fun t => pyInStr t (row_text f row cols))).length

/-- Invariant carried through the rule loop: the frame keeps the initial
columns and index, one row per index label, rows aligned with the
columns, and every label cell holds a sorted duplicate-free list of
strings. -/
def LabelInv (cols0 : List String) (idx0 : List Nat) (lc : String)
    (fr : Frame) : Prop :=
  fr.columns = cols0 ∧ fr.index = idx0 ∧ fr.rows.length = idx0.length ∧
    (∀ row ∈ fr.rows, row.length = cols0.length) ∧
    (∀ row ∈ fr.rows, ∃ ls, getCellRow cols0 row lc = some (.strs ls) ∧
      List.Sorted strLe ls ∧ ls.Nodup)

/-! ### Generic lemmas about the list helpers -/

theorem maskFilter_sublist {α : Type} (l : List α) (bs : List Bool) :
    List.Sublist (maskFilter l bs) l := by
  induction l generalizing bs with
  | nil => simp [maskFilter]
  | cons a as ih =>
    cases bs with
    | nil => simp [maskFilter]
    | cons b bs' =>
      by_cases hb : b = true
      · simpa [maskFilter, hb] using List.Sublist.cons₂ a (ih bs')
      · simp only [Bool.not_eq_true] at hb
        simpa [maskFilter, hb] using List.Sublist.cons a (ih bs')

theorem mem_maskFilter_map {α : Type} (l : List α) (p : α → Bool) (a : α) :
    a ∈ maskFilter l (l.map p) ↔ a ∈ l ∧ p a = true := by
  induction l with
  | nil => simp [maskFilter]
  | cons x xs ih =>
    by_cases hx : p x = true
    · simp only [List.map_cons, maskFilter, hx, if_true, List.mem_cons, ih]
      constructor
      · rintro (rfl | ⟨h1, h2⟩)
        · exact ⟨Or.inl rfl, hx⟩
        · exact ⟨Or.inr h1, h2⟩
      · rintro ⟨rfl | h1, h2⟩
        · exact Or.inl rfl
        · exact Or.inr ⟨h1, h2⟩
    · simp only [Bool.not_eq_true] at hx
      simp only [List.map_cons, maskFilter, hx, Bool.false_eq_true, if_false, ih,
        List.mem_cons]
      constructor
      · rintro ⟨h1, h2⟩
        exact ⟨Or.inr h1, h2⟩
      · rintro ⟨rfl | h1, h2⟩
        · rw [h2] at hx
          cases hx
        · exact ⟨h1, h2⟩

theorem firstIdx_lt_length {α : Type} (p : α → Bool) (l : List α) (q : Nat)
    (h : firstIdx p l = some q) : q < l.length := by
  induction l generalizing q with
  | nil => simp [firstIdx] at h
  | cons a as ih =>
    by_cases ha : p a = true
    · simp only [firstIdx, ha, if_true, Option.some.injEq] at h
      subst h
      simp
    · simp only [Bool.not_eq_true] at ha
      simp only [firstIdx, ha, Bool.false_eq_true, if_false, Option.map_eq_some'] at h
      obtain ⟨q', hq', rfl⟩ := h
      have := ih q' hq'
      simp only [List.length_cons]
      omega

theorem firstIdx_getD {α : Type} (p : α → Bool) (l : List α) (q : Nat) (d : α)
    (h : firstIdx p l = some q) : p (l.getD q d) = true := by
  induction l generalizing q with
  | nil => simp [firstIdx] at h
  | cons a as ih =>
    by_cases ha : p a = true
    · simp [firstIdx, ha] at h
      subst h
      simpa using ha
    · simp only [Bool.not_eq_true] at ha
      simp only [firstIdx, ha, Bool.false_eq_true, if_false, Option.map_eq_some'] at h
      obtain ⟨q', hq', rfl⟩ := h
      simpa using ih q' hq'

theorem firstIdx_append_none {α : Type} (p : α → Bool) (l : List α) (x : α)
    (h : firstIdx p l = none) :
    firstIdx p (l ++ [x]) = if p x then some l.length else none := by
  induction l with
  | nil => simp [firstIdx]
  | cons a as ih =>
    by_cases ha : p a = true
    · simp [firstIdx, ha] at h
    · simp only [Bool.not_eq_true] at ha
      simp only [firstIdx, ha, Bool.false_eq_true, if_false,
        Option.map_eq_none'] at h
      simp only [List.cons_append, firstIdx, ha, Bool.false_eq_true, if_false,
        List.length_cons, List.append_eq]
      rw [ih h]
      by_cases hx : p x = true
      · simp [hx]
      · simp only [Bool.not_eq_true] at hx
        simp [hx]

theorem list_getD_map {α β : Type} (f : α → β) (l : List α) (p : Nat)
    (d : α) (d' : β) (hp : p < l.length) :
    (l.map f).getD p d' = f (l.getD p d) := by
  rw [List.getD_eq_getElem?_getD, List.getD_eq_getElem?_getD, List.getElem?_map,
    List.getElem?_eq_getElem hp]
  rfl

/-! ### Lemmas about the Python string order used by `sorted` -/

theorem charsLe_total (a b : List Char) :
    charsLe a b = true ∨ charsLe b a = true := by
  induction a generalizing b with
  | nil => exact Or.inl rfl
  | cons x xs ih =>
    cases b with
    | nil => exact Or.inr rfl
    | cons y ys =>
      by_cases hxy : x = y
      · subst hxy
        simpa [charsLe] using ih ys
      · rcases lt_or_gt_of_ne hxy with hlt | hgt
        · exact Or.inl (by simp [charsLe, hxy, hlt])
        · refine Or.inr ?_
          have hyx : y ≠ x := fun h => hxy h.symm
          simp [charsLe, hyx, hgt]

theorem charsLe_trans (a b c : List Char) (h1 : charsLe a b = true)
    (h2 : charsLe b c = true) : charsLe a c = true := by
  induction a generalizing b c with
  | nil => rfl
  | cons x xs ih =>
    cases b with
    | nil => simp [charsLe] at h1
    | cons y ys =>
      cases c with
      | nil => simp [charsLe] at h2
      | cons z zs =>
        by_cases hxy : x = y
        · subst hxy
          simp only [charsLe, if_true] at h1
          by_cases hyz : x = z
          · subst hyz
            simp only [charsLe, if_true] at h2 ⊢
            exact ih ys zs h1 h2
          · simp only [charsLe, hyz, if_false] at h2 ⊢
            exact h2
        · simp only [charsLe, hxy, if_false, decide_eq_true_eq] at h1
          by_cases hyz : y = z
          · have hxz : x ≠ z := by
              rw [← hyz]
              exact hxy
            have hlt : x < z := by
              rw [← hyz]
              exact h1
            simp [charsLe, hxz, hlt]
          · simp only [charsLe, hyz, if_false, decide_eq_true_eq] at h2
            have hlt : x < z := lt_trans h1 h2
            have hxz : x ≠ z := ne_of_lt hlt
            simp [charsLe, hxz, hlt]

theorem pySortedSet_sorted (l : List String) :
    List.Sorted strLe (pySortedSet l) :=
  @List.sorted_insertionSort String strLe _
    ⟨fun a b => charsLe_total a.data b.data⟩
    ⟨fun a b c => charsLe_trans a.data b.data c.data⟩ l.dedup

theorem pySortedSet_nodup (l : List String) :
    (pySortedSet l).Nodup :=
  ((List.perm_insertionSort strLe l.dedup).symm).nodup (List.nodup_dedup l)

/-! ### Tokenisation of concatenated text -/

theorem wordsAux_append_space (ys : List Char) :
    ∀ (xs acc : List Char),
      wordsAux (xs ++ ' ' :: ys) acc = wordsAux xs acc ++ wordsAux ys [] := by
  intro xs
  induction xs with
  | nil =>
    intro acc
    by_cases hacc : acc.isEmpty = true
    · simp [wordsAux, hacc]
    · simp only [Bool.not_eq_true] at hacc
      simp [wordsAux, hacc]
  | cons c cs ih =>
    intro acc
    by_cases hws : c.isWhitespace = true
    · by_cases hacc : acc.isEmpty = true
      · simp [wordsAux, hws, hacc, ih]
      · simp only [Bool.not_eq_true] at hacc
        simp [wordsAux, hws, hacc, ih]
    · simp only [Bool.not_eq_true] at hws
      simp [wordsAux, hws, ih]

theorem pySplit_pyJoin_space (texts : List String) :
    pySplit (pyJoin " " texts) = (texts.map pySplit).flatten := by
  induction texts with
  | nil => simp [pySplit, pyJoin, wordsAux]
  | cons t ts ih =>
    cases ts with
    | nil => simp [pyJoin, pySplit]
    | cons t' ts' =>
      have hjoin : pyJoin " " (t :: t' :: ts') = t ++ " " ++ pyJoin " " (t' :: ts') := rfl
      have hdata : (t ++ " " ++ pyJoin " " (t' :: ts')).data =
          t.data ++ ' ' :: (pyJoin " " (t' :: ts')).data := by
        simp [String.data_append]
      have hsplit : pySplit (t ++ " " ++ pyJoin " " (t' :: ts')) =
          pySplit t ++ pySplit (pyJoin " " (t' :: ts')) := by
        unfold pySplit
        rw [hdata, wordsAux_append_space, List.map_append]
      rw [hjoin, hsplit, ih]
      simp

/-! ### Frame operation lemmas -/

theorem iloc_empty_columns (f : Frame) : (iloc_empty f).columns = f.columns := rfl

theorem filterFrame_columns (f : Frame) (pred : Row → Bool) :
    (filterFrame f pred).columns = f.columns := rfl

theorem filterFrame_index_sublist (f : Frame) (pred : Row → Bool) :
    List.Sublist (filterFrame f pred).index f.index :=
  maskFilter_sublist f.index (f.rows.map pred)

theorem mem_filterFrame_rows (f : Frame) (pred : Row → Bool) (row : Row) :
    row ∈ (filterFrame f pred).rows ↔ row ∈ f.rows ∧ pred row = true :=
  mem_maskFilter_map f.rows pred row

theorem atSet_columns (f : Frame) (label : Nat) (c : String) (v : Cell) :
    (atSet f label c v).columns = f.columns := by
  unfold atSet
  rcases h1 : firstIdx (fun x => x = label) f.index with _ | q
  · rfl
  · rcases h2 : colIdx f.columns c with _ | i
    · rfl
    · rfl

theorem atSet_index (f : Frame) (label : Nat) (c : String) (v : Cell) :
    (atSet f label c v).index = f.index := by
  unfold atSet
  rcases h1 : firstIdx (fun x => x = label) f.index with _ | q
  · rfl
  · rcases h2 : colIdx f.columns c with _ | i
    · rfl
    · rfl

theorem atSet_rows_length (f : Frame) (label : Nat) (c : String) (v : Cell) :
    (atSet f label c v).rows.length = f.rows.length := by
  unfold atSet
  rcases h1 : firstIdx (fun x => x = label) f.index with _ | q
  · rfl
  · rcases h2 : colIdx f.columns c with _ | i
    · rfl
    · simp

/-- A row whose index label differs from the written label is untouched by
`atSet`. -/
theorem atSet_rows_getD_ne (f : Frame) (label : Nat) (c : String) (v : Cell)
    (p : Nat) (hp : f.index.getD p 0 ≠ label) :
    (atSet f label c v).rows.getD p [] = f.rows.getD p [] := by
  unfold atSet
  rcases h1 : firstIdx (fun x => x = label) f.index with _ | q
  · rfl
  · rcases h2 : colIdx f.columns c with _ | i
    · rfl
    · have hq : f.index.getD q 0 = label := by
        have := firstIdx_getD (fun x => x = label) f.index q 0 h1
        simpa using this
      have hpq : p ≠ q := by
        intro h
        rw [h] at hp
        exact hp hq
      simp only [List.getD_eq_getElem?_getD]
      rw [List.getElem?_set_ne (Ne.symm hpq)]

theorem updLabel_columns (lc lab : String) (fr : Frame) (label : Nat) :
    (updLabel lc lab fr label).columns = fr.columns :=
  atSet_columns fr label lc _

theorem updLabel_index (lc lab : String) (fr : Frame) (label : Nat) :
    (updLabel lc lab fr label).index = fr.index :=
  atSet_index fr label lc _

theorem foldl_updLabel_columns (lc lab : String) (idxs : List Nat) (fr : Frame) :
    (idxs.foldl (updLabel lc lab) fr).columns = fr.columns := by
  induction idxs generalizing fr with
  | nil => rfl
  | cons i is ih =>
    simp only [List.foldl_cons]
    rw [ih, updLabel_columns]

theorem foldl_updLabel_index (lc lab : String) (idxs : List Nat) (fr : Frame) :
    (idxs.foldl (updLabel lc lab) fr).index = fr.index := by
  induction idxs generalizing fr with
  | nil => rfl
  | cons i is ih =>
    simp only [List.foldl_cons]
    rw [ih, updLabel_index]

/-- A row whose index label is matched by none of the updates of one rule
keeps its cells. -/
theorem foldl_updLabel_getD_notmem (lc lab : String) (idxs : List Nat)
    (fr : Frame) (p : Nat) (hp : fr.index.getD p 0 ∉ idxs) :
    (idxs.foldl (updLabel lc lab) fr).rows.getD p [] = fr.rows.getD p [] := by
  induction idxs generalizing fr with
  | nil => rfl
  | cons i is ih =>
    simp only [List.mem_cons, not_or] at hp
    simp only [List.foldl_cons]
    have hidx : (updLabel lc lab fr i).index = fr.index := updLabel_index lc lab fr i
    have h1 : (updLabel lc lab fr i).rows.getD p [] = fr.rows.getD p [] :=
      atSet_rows_getD_ne fr i lc _ p hp.1
    rw [ih (updLabel lc lab fr i) (by rw [hidx]; exact hp.2), h1]

theorem list_getD_mem {α : Type} (l : List α) (p : Nat) (d : α)
    (hp : p < l.length) : l.getD p d ∈ l := by
  rw [List.getD_eq_getElem?_getD, List.getElem?_eq_getElem hp]
  exact List.getElem_mem hp

/-! ### The label-column invariant of `label_by_rules` -/

theorem updLabel_labelInv (cols0 : List String) (idx0 : List Nat)
    (lc lab : String) (i0 : Nat) (hcol : colIdx cols0 lc = some i0)
    (fr : Frame) (label : Nat) (hinv : LabelInv cols0 idx0 lc fr) :
    LabelInv cols0 idx0 lc (updLabel lc lab fr label) := by
  obtain ⟨hc, hi, hlen, hrowlen, hcells⟩ := hinv
  unfold updLabel atSet
  rcases h1 : firstIdx (fun x => x = label) fr.index with _ | q
  · exact ⟨hc, hi, hlen, hrowlen, hcells⟩
  · rw [hc, hcol]
    dsimp only
    have hq : q < fr.rows.length := by
      have := firstIdx_lt_length _ _ _ h1
      rw [hi] at this
      omega
    have hmemq : fr.rows.getD q [] ∈ fr.rows := list_getD_mem _ _ _ hq
    have hqlen : (fr.rows.getD q []).length = cols0.length := hrowlen _ hmemq
    have hi0 : i0 < cols0.length := firstIdx_lt_length _ _ _ hcol
    refine ⟨rfl, hi, ?_, ?_, ?_⟩
    · simpa using hlen
    · intro row hrow
      rcases List.mem_or_eq_of_mem_set hrow with hrow | rfl
      · exact hrowlen _ hrow
      · simpa [hqlen] using hqlen
    · intro row hrow
      rcases List.mem_or_eq_of_mem_set hrow with hrow | rfl
      · exact hcells _ hrow
      · refine ⟨pySortedSet (lab :: cellLabels (atGet fr label lc)), ?_,
          pySortedSet_sorted _, pySortedSet_nodup _⟩
        unfold getCellRow
        rw [hcol]
        simp only [Option.some_bind]
        rw [List.getElem?_set_self']
        have : i0 < (fr.rows.getD q []).length := by
          rw [hqlen]
          exact hi0
        rw [List.getElem?_eq_getElem this]
        rfl

theorem foldl_updLabel_labelInv (cols0 : List String) (idx0 : List Nat)
    (lc lab : String) (i0 : Nat) (hcol : colIdx cols0 lc = some i0)
    (idxs : List Nat) (fr : Frame) (hinv : LabelInv cols0 idx0 lc fr) :
    LabelInv cols0 idx0 lc (idxs.foldl (updLabel lc lab) fr) := by
  induction idxs generalizing fr with
  | nil => exact hinv
  | cons i is ih =>
    exact ih _ (updLabel_labelInv cols0 idx0 lc lab i0 hcol fr i hinv)

theorem apply_rule_ok (lc : String) (fr : Frame) (rule : Rule) (fr1 : Frame)
    (idxs : List Nat) (h : apply_rule lc fr rule = Except.ok (fr1, idxs)) :
    ∃ subset, by_keywords fr rule.terms rule.mode rule.columns rule.min_match
        = Except.ok subset ∧
      fr1 = subset.index.foldl (updLabel lc rule.label) fr ∧
      idxs = subset.index := by
  unfold apply_rule at h
  rcases hbk : by_keywords fr rule.terms rule.mode rule.columns rule.min_match
    with e | subset
  · rw [hbk] at h
    cases h
  · rw [hbk] at h
    simp only [Except.map, Except.ok.injEq, Prod.mk.injEq] at h
    exact ⟨subset, rfl, h.1.symm, h.2.symm⟩

theorem apply_rules_aux_spec (cols0 : List String) (idx0 : List Nat)
    (lc : String) (i0 : Nat) (hcol : colIdx cols0 lc = some i0) :
    ∀ (rules : List Rule) (fr F : Frame) (trace : List (List Nat)),
      apply_rules_aux lc fr rules = Except.ok (F, trace) →
      LabelInv cols0 idx0 lc fr →
      LabelInv cols0 idx0 lc F ∧
        ∀ p : Nat, (∀ idxs ∈ trace, idx0.getD p 0 ∉ idxs) →
          F.rows.getD p [] = fr.rows.getD p [] := by
  intro rules
  induction rules with
  | nil =>
    intro fr F trace h hinv
    simp only [apply_rules_aux, Except.ok.injEq, Prod.mk.injEq] at h
    obtain ⟨rfl, rfl⟩ := h
    exact ⟨hinv, fun p _ => rfl⟩
  | cons rule rest ih =>
    intro fr F trace h hinv
    unfold apply_rules_aux at h
    rcases happ : apply_rule lc fr rule with e | fr1idxs
    · rw [happ] at h
      dsimp only at h
      cases h
    · obtain ⟨fr1, idxs⟩ := fr1idxs
      rw [happ] at h
      dsimp only at h
      rcases hrest : apply_rules_aux lc fr1 rest with e | fr2trace
      · rw [hrest] at h
        dsimp only at h
        cases h
      · obtain ⟨fr2, trace'⟩ := fr2trace
        rw [hrest] at h
        dsimp only at h
        simp only [Except.ok.injEq, Prod.mk.injEq] at h
        obtain ⟨rfl, rfl⟩ := h
        obtain ⟨subset, hbk, rfl, rfl⟩ := apply_rule_ok lc fr rule fr1 idxs happ
        have hinv1 : LabelInv cols0 idx0 lc
            (subset.index.foldl (updLabel lc rule.label) fr) :=
          foldl_updLabel_labelInv cols0 idx0 lc rule.label i0 hcol _ fr hinv
        obtain ⟨hinvF, huntouched⟩ := ih _ _ _ hrest hinv1
        refine ⟨hinvF, ?_⟩
        intro p hp
        have hp1 : ∀ idxs' ∈ trace', idx0.getD p 0 ∉ idxs' := by
          intro idxs' hmem
          exact hp idxs' (List.mem_cons_of_mem _ hmem)
        have hp0 : idx0.getD p 0 ∉ subset.index :=
          hp subset.index (List.mem_cons_self _ _)
        rw [huntouched p hp1]
        apply foldl_updLabel_getD_notmem
        rw [hinv.2.1]
        exact hp0

theorem init_labels_spec (papers : Frame) (lc : String)
    (hwf : papers.wf = true) :
    ∃ i0, colIdx (init_labels papers lc).columns lc = some i0 ∧
      LabelInv (init_labels papers lc).columns papers.index lc
        (init_labels papers lc) ∧
      ∀ p : Nat, p < papers.rows.length →
        getCellRow (init_labels papers lc).columns
          ((init_labels papers lc).rows.getD p []) lc = some (.strs []) := by
  simp only [Frame.wf, Bool.and_eq_true, List.all_eq_true, decide_eq_true_eq] at hwf
  obtain ⟨hrowlen, hidxlen⟩ := hwf
  unfold init_labels setColumnConst
  rcases h : colIdx papers.columns lc with _ | i
  all_goals dsimp only
  · -- the label column is appended at the end
    have hfound : colIdx (papers.columns ++ [lc]) lc = some papers.columns.length := by
      unfold colIdx at h ⊢
      rw [firstIdx_append_none _ _ _ h]
      simp
    refine ⟨papers.columns.length, hfound, ⟨rfl, rfl, ?_, ?_, ?_⟩, ?_⟩
    · simpa using hidxlen.symm
    · intro row hrow
      obtain ⟨r, hr, rfl⟩ := List.mem_map.mp hrow
      simp [hrowlen r hr]
    · intro row hrow
      obtain ⟨r, hr, rfl⟩ := List.mem_map.mp hrow
      refine ⟨[], ?_, List.sorted_nil, List.nodup_nil⟩
      unfold getCellRow
      rw [hfound]
      simp only [Option.some_bind]
      rw [← hrowlen r hr, List.getElem?_concat_length]
    · intro p hp
      have hgd : (papers.rows.map (fun r => r ++ [Cell.strs []])).getD p [] =
          papers.rows.getD p [] ++ [Cell.strs []] :=
        list_getD_map _ _ p [] [] hp
      simp only [hgd]
      unfold getCellRow
      rw [hfound]
      simp only [Option.some_bind]
      rw [← hrowlen _ (list_getD_mem _ _ _ hp), List.getElem?_concat_length]
  · -- the label column already exists and is overwritten
    have hilt : i < papers.columns.length := firstIdx_lt_length _ _ _ h
    refine ⟨i, h, ⟨rfl, rfl, ?_, ?_, ?_⟩, ?_⟩
    · simpa using hidxlen.symm
    · intro row hrow
      obtain ⟨r, hr, rfl⟩ := List.mem_map.mp hrow
      simp [hrowlen r hr]
    · intro row hrow
      obtain ⟨r, hr, rfl⟩ := List.mem_map.mp hrow
      refine ⟨[], ?_, List.sorted_nil, List.nodup_nil⟩
      unfold getCellRow
      rw [h]
      simp only [Option.some_bind]
      rw [List.getElem?_set_self']
      have : i < r.length := by
        rw [hrowlen r hr]
        exact hilt
      rw [List.getElem?_eq_getElem this]
      rfl
    · intro p hp
      have hgd : (papers.rows.map (fun r => r.set i (Cell.strs []))).getD p [] =
          (papers.rows.getD p []).set i (Cell.strs []) :=
        list_getD_map _ _ p [] [] hp
      simp only [hgd]
      unfold getCellRow
      rw [h]
      simp only [Option.some_bind]
      rw [List.getElem?_set_self']
      have : i < (papers.rows.getD p []).length := by
        rw [hrowlen _ (list_getD_mem _ _ _ hp)]
        exact hilt
      rw [List.getElem?_eq_getElem this]
      rfl

/-! ## The claims -/

/-- C8: for every papers table (also without searchable text columns),
every mode string (also unsupported ones) and any columns/min-match
arguments, `by_keywords` with an empty terms sequence returns the empty
slice and raises no error; terms that are all blank after stripping
likewise yield the empty slice whenever column resolution succeeds (in
particular for every table that has searchable columns). -/
theorem C8_vacuous_query :
    (∀ (papers : Frame) (mode : String) (columns : Option (List String))
        (mm : Option Int),
        by_keywords papers [] mode columns mm = Except.ok (iloc_empty papers)) ∧
    (∀ (papers : Frame) (terms : List String) (mode : String)
        (columns : Option (List String)) (mm : Option Int) (sc : List String),
        terms ≠ [] → (∀ t ∈ terms, pyStrip t = "") →
        resolve_columns papers columns = Except.ok sc →
        by_keywords papers terms mode columns mm = Except.ok (iloc_empty papers)) := by
  constructor
  · intro papers mode columns mm
    rfl
  · intro papers terms mode columns mm sc hne hblank hrc
    unfold by_keywords
    rw [if_neg (by simpa [List.isEmpty_iff] using hne), hrc]
    dsimp only
    have hfilter : terms.filter (fun t => pyStrip t ≠ "") = [] := by
      rw [List.filter_eq_nil_iff]
      intro t ht
      simp [hblank t ht]
    rw [hfilter]
    rfl

/-- Witness for C8 at a table with a title column, an unsupported mode
string and a blank term list. -/
theorem C8_vacuous_query_witness :
    by_keywords ⟨["title"], [0], [[Cell.str "alpha"]]⟩ [] "weird" none none =
      Except.ok (iloc_empty ⟨["title"], [0], [[Cell.str "alpha"]]⟩) ∧
    by_keywords ⟨["title"], [0], [[Cell.str "alpha"]]⟩ ["  "] "weird" none none =
      Except.ok (iloc_empty ⟨["title"], [0], [[Cell.str "alpha"]]⟩) :=
  ⟨C8_vacuous_query.1 _ "weird" none none,
   C8_vacuous_query.2 ⟨["title"], [0], [[Cell.str "alpha"]]⟩ ["  "] "weird" none
     none ["title"] (by decide) (by decide) rfl⟩

/-- C10: the effective minimum of the minmatch matcher is
`max(1, min_match or term count)`: an explicit zero behaves exactly like
an absent minimum (all terms must appear), every negative minimum behaves
like a minimum of one, a non-zero minimum is clamped to `max 1 m`, the
absent minimum equals the term count whenever there is at least one term,
and these identities lift to `by_keywords` in minmatch mode. -/
theorem C10_min_match_effective :
    (∀ ts : List String,
        effective_min_match ts (some 0) = effective_min_match ts none) ∧
    (∀ (ts : List String) (m : Int), m < 0 →
        effective_min_match ts (some m) = effective_min_match ts (some 1)) ∧
    (∀ (ts : List String) (m : Int), m ≠ 0 →
        effective_min_match ts (some m) = max 1 m) ∧
    (∀ ts : List String, ts ≠ [] →
        effective_min_match ts none = (ts.length : Int)) ∧
    (∀ (papers : Frame) (terms : List String) (columns : Option (List String)),
        by_keywords papers terms "minmatch" columns (some 0) =
          by_keywords papers terms "minmatch" columns none) ∧
    (∀ (papers : Frame) (terms : List String) (columns : Option (List String))
        (m : Int), m < 0 →
        by_keywords papers terms "minmatch" columns (some m) =
          by_keywords papers terms "minmatch" columns (some 1)) := by
  have h0 : ∀ ts : List String,
      effective_min_match ts (some 0) = effective_min_match ts none := by
    intro ts
    simp [effective_min_match]
  have hneg : ∀ (ts : List String) (m : Int), m < 0 →
      effective_min_match ts (some m) = effective_min_match ts (some 1) := by
    intro ts m hm
    unfold effective_min_match
    dsimp only
    rw [if_neg (by omega : ¬ m = 0), if_neg (by decide : ¬ (1 : Int) = 0)]
    rw [max_eq_left (by omega : m ≤ (1 : Int)), max_self]
  have hfun0 : ∀ ts : List String,
      minimum_match_matches ts (some 0) = minimum_match_matches ts none := by
    intro ts
    funext f row cols
    unfold minimum_match_matches
    rw [h0]
  have hfunneg : ∀ (ts : List String) (m : Int), m < 0 →
      minimum_match_matches ts (some m) = minimum_match_matches ts (some 1) := by
    intro ts m hm
    funext f row cols
    unfold minimum_match_matches
    rw [hneg ts m hm]
  refine ⟨h0, hneg, ?_, ?_, ?_, ?_⟩
  · intro ts m hm
    unfold effective_min_match
    dsimp only
    rw [if_neg hm]
  · intro ts hts
    unfold effective_min_match
    dsimp only
    have h1 : 1 ≤ ts.length := List.length_pos.mpr hts
    rw [max_eq_right (by exact_mod_cast h1)]
  · intro papers terms columns
    unfold by_keywords
    simp only [hfun0]
  · intro papers terms columns m hm
    unfold by_keywords
    simp only [hfunneg _ m hm]

/-- Witness for C10 at a concrete term list, a negative and a positive
minimum, and a concrete minmatch query. -/
theorem C10_min_match_effective_witness :
    effective_min_match ["a", "b"] (some (-5)) =
      effective_min_match ["a", "b"] (some 1) ∧
    effective_min_match ["a", "b"] (some 2) = max 1 2 ∧
    effective_min_match ["a", "b"] none = (2 : Int) ∧
    by_keywords ⟨["title"], [0], [[Cell.str "alpha"]]⟩ ["a"] "minmatch" none
        (some (-3)) =
      by_keywords ⟨["title"], [0], [[Cell.str "alpha"]]⟩ ["a"] "minmatch" none
        (some 1) :=
  ⟨C10_min_match_effective.2.1 ["a", "b"] (-5) (by decide),
   C10_min_match_effective.2.2.1 ["a", "b"] 2 (by decide),
   C10_min_match_effective.2.2.2.1 ["a", "b"] (by decide),
   C10_min_match_effective.2.2.2.2.2 ⟨["title"], [0], [[Cell.str "alpha"]]⟩
     ["a"] none (-3) (by decide)⟩

/-- C3 counterexample: `by_keywords` does not reset the positional index.
On a two-row table whose second row alone matches, the result keeps the
original index label 1 instead of being renumbered to 0.  The claimed
reset would be visible here as an index of `[0]`. -/
theorem C3_counterexample :
    by_keywords ⟨["title"], [0, 1], [[Cell.str "alpha"], [Cell.str "rule based"]]⟩
        ["rule"] "substring" none none =
      Except.ok ⟨["title"], [1], [[Cell.str "rule based"]]⟩ ∧
    ([1] : List Nat) ≠ [0] :=
  ⟨rfl, by decide⟩

/-- C3 amended: the table returned by `by_keywords` preserves the input's
original column order, and its index is the subsequence of the input's
original index labels at the matching rows (pandas `.loc`); the
positional index is not reset. -/
theorem C3_columns_preserved_index_retained (papers : Frame)
    (terms : List String) (mode : String) (columns : Option (List String))
    (mm : Option Int) (F : Frame)
    (h : by_keywords papers terms mode columns mm = Except.ok F) :
    F.columns = papers.columns ∧ List.Sublist F.index papers.index := by
  unfold by_keywords at h
  by_cases ht : terms.isEmpty = true
  · rw [if_pos ht] at h
    injection h with h
    subst h
    exact ⟨rfl, List.nil_sublist _⟩
  · rw [if_neg ht] at h
    rcases hrc : resolve_columns papers columns with e | sc
    all_goals rw [hrc] at h
    all_goals dsimp only at h
    · cases h
    · split at h
      · injection h with h
        subst h
        exact ⟨rfl, List.nil_sublist _⟩
      · split at h
        · injection h with h
          subst h
          exact ⟨filterFrame_columns _ _, filterFrame_index_sublist _ _⟩
        · split at h
          · injection h with h
            subst h
            exact ⟨filterFrame_columns _ _, filterFrame_index_sublist _ _⟩
          · split at h
            · injection h with h
              subst h
              exact ⟨filterFrame_columns _ _, filterFrame_index_sublist _ _⟩
            · cases h

/-- Witness for the amended C3 at the counterexample table. -/
theorem C3_columns_preserved_index_retained_witness :
    (⟨["title"], [1], [[Cell.str "rule based"]]⟩ : Frame).columns =
      (⟨["title"], [0, 1], [[Cell.str "alpha"], [Cell.str "rule based"]]⟩ : Frame).columns ∧
    List.Sublist
      (⟨["title"], [1], [[Cell.str "rule based"]]⟩ : Frame).index
      (⟨["title"], [0, 1], [[Cell.str "alpha"], [Cell.str "rule based"]]⟩ : Frame).index :=
  C3_columns_preserved_index_retained
    ⟨["title"], [0, 1], [[Cell.str "alpha"], [Cell.str "rule based"]]⟩
    ["rule"] "substring" none none ⟨["title"], [1], [[Cell.str "rule based"]]⟩ rfl

/-- C6: all modes share one column-resolution policy.  A usable explicit
column list (one naming at least one existing column) wins after being
filtered to the existing columns; otherwise the default order title,
abstract, keywords, summary is filtered to the existing columns; when
that also leaves nothing the resolution fails with the
no-searchable-columns error, and `by_keywords` propagates that failure
for every mode string whenever the term list is non-empty. -/
theorem C6_column_resolution_policy :
    (∀ (papers : Frame) (explicit : List String),
        explicit.filter (fun c => papers.columns.contains c) ≠ [] →
        resolve_columns papers (some explicit) =
          Except.ok (explicit.filter (fun c => papers.columns.contains c))) ∧
    (∀ (papers : Frame) (columns : Option (List String)),
        (columns = none ∨ ∃ e, columns = some e ∧
            e.filter (fun c => papers.columns.contains c) = []) →
        (["title", "abstract", "keywords", "summary"].filter
              (fun c => papers.columns.contains c) ≠ [] →
          resolve_columns papers columns = Except.ok
            (["title", "abstract", "keywords", "summary"].filter
              (fun c => papers.columns.contains c))) ∧
        (["title", "abstract", "keywords", "summary"].filter
              (fun c => papers.columns.contains c) = [] →
          resolve_columns papers columns =
            Except.error FilterError.noSearchableColumns)) ∧
    (∀ (papers : Frame) (terms : List String) (mode : String)
        (columns : Option (List String)) (mm : Option Int) (e : FilterError),
        terms ≠ [] → resolve_columns papers columns = Except.error e →
        by_keywords papers terms mode columns mm = Except.error e) := by
  refine ⟨?_, ?_, ?_⟩
  · intro papers explicit hne
    have h1 : ¬((explicit.filter (fun c => papers.columns.contains c)).isEmpty = true) := by
      simpa [List.isEmpty_iff] using hne
    unfold resolve_columns
    dsimp only
    rw [if_neg h1]
  · intro papers columns hcols
    constructor
    · intro hdef
      have h2 : ¬((["title", "abstract", "keywords", "summary"].filter
          (fun c => papers.columns.contains c)).isEmpty = true) := by
        simpa [List.isEmpty_iff] using hdef
      rcases hcols with rfl | ⟨e, rfl, he⟩
      · unfold resolve_columns
        dsimp only
        rw [if_neg h2]
      · have h3 : (e.filter (fun c => papers.columns.contains c)).isEmpty = true := by
          simpa [List.isEmpty_iff] using he
        unfold resolve_columns
        dsimp only
        rw [if_pos h3, if_neg h2]
    · intro hdef
      have h2 : (["title", "abstract", "keywords", "summary"].filter
          (fun c => papers.columns.contains c)).isEmpty = true := by
        simpa [List.isEmpty_iff] using hdef
      rcases hcols with rfl | ⟨e, rfl, he⟩
      · unfold resolve_columns
        dsimp only
        rw [if_pos h2]
      · have h3 : (e.filter (fun c => papers.columns.contains c)).isEmpty = true := by
          simpa [List.isEmpty_iff] using he
        unfold resolve_columns
        dsimp only
        rw [if_pos h3, if_pos h2]
  · intro papers terms mode columns mm e hne hrc
    unfold by_keywords
    rw [if_neg (show ¬(terms.isEmpty = true) by simpa [List.isEmpty_iff] using hne),
      hrc]

/-- Witness for C6: a usable explicit list wins, an unusable explicit
list falls back to the defaults, and a table without text columns makes
`by_keywords` fail for an arbitrary mode string. -/
theorem C6_column_resolution_policy_witness :
    resolve_columns ⟨["abstract", "title"], [], []⟩ (some ["title", "nope"]) =
      Except.ok ["title"] ∧
    resolve_columns ⟨["title"], [], []⟩ (some ["nope"]) = Except.ok ["title"] ∧
    by_keywords ⟨["venue"], [0], [[Cell.str "x"]]⟩ ["gan"] "weird" none none =
      Except.error FilterError.noSearchableColumns := by
  refine ⟨?_, ?_, ?_⟩
  · exact C6_column_resolution_policy.1 ⟨["abstract", "title"], [], []⟩
      ["title", "nope"] (by decide)
  · exact (C6_column_resolution_policy.2.1 ⟨["title"], [], []⟩ (some ["nope"])
      (Or.inr ⟨["nope"], rfl, by decide⟩)).1 (by decide)
  · exact C6_column_resolution_policy.2.2 ⟨["venue"], [0], [[Cell.str "x"]]⟩
      ["gan"] "weird" none none FilterError.noSearchableColumns (by decide) rfl

theorem parse_entry_eq_none_of_bad (y : Yaml) (hy : bad_entry y = true) :
    parse_entry y = none := by
  cases y with
  | map entries =>
    simp only [bad_entry, Bool.or_eq_true, decide_eq_true_eq] at hy
    unfold parse_entry
    dsimp only
    rcases hy with hy | hy
    · rw [if_pos hy]
    · by_cases hl : pyStrip (pyStr ((mapGet entries "label").getD (.str ""))) = ""
      · rw [if_pos hl]
      · rw [if_neg hl, if_pos hy]
  | null => rfl
  | str s => rfl
  | int n => rfl
  | list items => rfl

/-- C7: rule entries that are not mappings, have no usable label, or
resolve to zero usable terms are silently skipped by rule parsing — no
error is raised, the parse is total — and the remaining entries are
parsed and applied by `label_by_rules` exactly as if the bad entry were
absent. -/
theorem C7_permissive_rule_parsing (pre suf : List Yaml) (entry : Yaml)
    (hbad : bad_entry entry = true) :
    parse_rules (.list (pre ++ entry :: suf)) = parse_rules (.list (pre ++ suf)) ∧
    ∀ (papers : Frame) (lc : String),
      label_by_rules papers (.list (pre ++ entry :: suf)) lc =
        label_by_rules papers (.list (pre ++ suf)) lc := by
  have hparse : parse_rules (.list (pre ++ entry :: suf)) =
      parse_rules (.list (pre ++ suf)) := by
    unfold parse_rules rulesContainer entriesOf
    rw [List.filterMap_append, List.filterMap_append, List.filterMap_cons,
      parse_entry_eq_none_of_bad entry hbad]
  refine ⟨hparse, ?_⟩
  intro papers lc
  unfold label_by_rules label_by_rules_aux
  rw [hparse]

/-- Witness for C7: a non-mapping entry, a blank-label entry and a
no-terms entry sitting between two good entries are all skipped while the
good entries still parse, and labelling is unchanged. -/
theorem C7_permissive_rule_parsing_witness :
    parse_rules (.list
        [.map [("label", .str "A"), ("terms", .str "gan")],
         .int 3,
         .map [("label", .str "A"), ("terms", .str "gan")]]) =
      parse_rules (.list
        [.map [("label", .str "A"), ("terms", .str "gan")],
         .map [("label", .str "A"), ("terms", .str "gan")]]) ∧
    parse_rules (.list [.map [("label", .str "  ") , ("terms", .str "gan")]]) =
      parse_rules (.list []) ∧
    parse_rules (.list [.map [("label", .str "B"), ("terms", .str "   ")]]) =
      parse_rules (.list []) ∧
    label_by_rules ⟨["title"], [0], [[Cell.str "gan model"]]⟩
        (.list [.int 3, .map [("label", .str "A"), ("terms", .str "gan")]]) "labels" =
      label_by_rules ⟨["title"], [0], [[Cell.str "gan model"]]⟩
        (.list [.map [("label", .str "A"), ("terms", .str "gan")]]) "labels" :=
  ⟨(C7_permissive_rule_parsing
      [.map [("label", .str "A"), ("terms", .str "gan")]]
      [.map [("label", .str "A"), ("terms", .str "gan")]] (.int 3) rfl).1,
   (C7_permissive_rule_parsing [] [] (.map [("label", .str "  "), ("terms", .str "gan")])
      (by decide)).1,
   (C7_permissive_rule_parsing [] [] (.map [("label", .str "B"), ("terms", .str "   ")])
      (by decide)).1,
   (C7_permissive_rule_parsing []
      [.map [("label", .str "A"), ("terms", .str "gan")]] (.int 3) rfl).2
     ⟨["title"], [0], [[Cell.str "gan model"]]⟩ "labels"⟩

theorem modeAndMin_no_int (entries : List (String × Yaml)) (terms : List String)
    (h : isIntOpt (mapGet entries "min_match") = false) :
    modeAndMin entries terms =
      (let mode0 := pyLower (pyStr ((mapGet entries "mode").getD (.str "lemma")))
       let matchType := pyLower (pyStr ((mapGet entries "match").getD (.str "any")))
       (if matchType = "all" && mode0 = "lemma" then "minmatch" else mode0,
        if matchType = "all" then some ((terms.length : Int)) else none)) := by
  unfold modeAndMin
  rcases hv : mapGet entries "min_match" with _ | v
  · rfl
  · cases v with
    | null => rfl
    | str s => rfl
    | int n =>
      rw [hv] at h
      simp [isIntOpt] at h
    | list items => rfl
    | map kvs => rfl

/-- C2 counterexample: a rule entry carrying `match: "all"` and no
explicit mode, but an explicit integer `min_match`, is parsed with mode
lemma and the explicit minimum — not as a minmatch rule with the term
count.  The entry is label X, terms a and b, match all, min-match 1. -/
theorem C2_counterexample :
    parse_rules (.list [.map [("label", .str "X"),
        ("terms", .list [.str "a", .str "b"]),
        ("match", .str "all"), ("min_match", .int 1)]]) =
      [⟨"X", ["a", "b"], "lemma", none, some 1⟩] ∧
    ("lemma" : String) ≠ "minmatch" ∧ (some (1 : Int)) ≠ some 2 :=
  ⟨rfl, by decide, by decide⟩

/-- C2 amended: a rule entry carrying `match: "all"`, no explicit mode
and no explicit integer `min_match` parses to a minmatch rule whose
minimum is its usable-term count, and `label_by_rules` on that single
entry behaves exactly like the rule loop run on the explicitly
constructed minmatch rule with that minimum over the same label, terms
and columns. -/
theorem C2_match_all_shorthand (entries : List (String × Yaml)) (r : Rule)
    (hmode : mapGet entries "mode" = none)
    (hmatch : mapGet entries "match" = some (.str "all"))
    (hmm : isIntOpt (mapGet entries "min_match") = false)
    (hparse : parse_entry (.map entries) = some r) :
    r.mode = "minmatch" ∧ r.min_match = some ((r.terms.length : Int)) ∧
    ∀ (papers : Frame) (lc : String),
      label_by_rules papers (.list [.map entries]) lc =
        apply_rules papers
          [⟨r.label, r.terms, "minmatch", r.columns, some ((r.terms.length : Int))⟩]
          lc := by
  have hmam : modeAndMin entries
      ((entryTerms entries).filter (fun t => pyStrip t ≠ "")) =
      ("minmatch",
        some ((((entryTerms entries).filter (fun t => pyStrip t ≠ "")).length : Int))) := by
    rw [modeAndMin_no_int entries _ hmm, hmode, hmatch]
    rfl
  by_cases hl : pyStrip (pyStr ((mapGet entries "label").getD (.str ""))) = ""
  · unfold parse_entry at hparse
    dsimp only at hparse
    rw [if_pos hl] at hparse
    cases hparse
  · by_cases ht : ((entryTerms entries).filter (fun t => pyStrip t ≠ "")).isEmpty = true
    · unfold parse_entry at hparse
      dsimp only at hparse
      rw [if_neg hl, if_pos ht] at hparse
      cases hparse
    · have hp : parse_entry (.map entries) =
          some ⟨pyStrip (pyStr ((mapGet entries "label").getD (.str ""))),
            (entryTerms entries).filter (fun t => pyStrip t ≠ ""), "minmatch",
            entryColumns entries,
            some ((((entryTerms entries).filter (fun t => pyStrip t ≠ "")).length : Int))⟩ := by
        unfold parse_entry
        dsimp only
        rw [if_neg hl, if_neg ht, hmam]
      rw [hp] at hparse
      injection hparse with hparse
      subst hparse
      refine ⟨rfl, rfl, ?_⟩
      intro papers lc
      unfold label_by_rules label_by_rules_aux apply_rules
      have hrules : parse_rules (.list [.map entries]) =
          [⟨pyStrip (pyStr ((mapGet entries "label").getD (.str ""))),
            (entryTerms entries).filter (fun t => pyStrip t ≠ ""), "minmatch",
            entryColumns entries,
            some ((((entryTerms entries).filter (fun t => pyStrip t ≠ "")).length : Int))⟩] := by
        unfold parse_rules rulesContainer entriesOf
        rw [List.filterMap_cons, hp]
        rfl
      rw [hrules]

/-- Witness for the amended C2 at a concrete all-of entry. -/
theorem C2_match_all_shorthand_witness :
    label_by_rules ⟨["title"], [0], [[Cell.str "rule based planning"]]⟩
        (.list [.map [("label", .str "P"),
          ("terms", .list [.str "rule", .str "planning"]),
          ("match", .str "all")]]) "labels" =
      apply_rules ⟨["title"], [0], [[Cell.str "rule based planning"]]⟩
        [⟨"P", ["rule", "planning"], "minmatch", none, some 2⟩] "labels" :=
  (C2_match_all_shorthand
    [("label", .str "P"), ("terms", .list [.str "rule", .str "planning"]),
      ("match", .str "all")]
    ⟨"P", ["rule", "planning"], "minmatch", none, some 2⟩
    rfl rfl rfl rfl).2.2 ⟨["title"], [0], [[Cell.str "rule based planning"]]⟩ "labels"

/-- C4: on every well-formed papers table and every rule-set, a
successful `label_by_rules` run keeps the index, stores in the label
column of every row a present list (never missing) that is sorted in
Python string order with no duplicate labels, and leaves the empty list
on every row matched by none of the rules (the trace holds the matched
index labels of each rule application). -/
theorem C4_label_accumulation (papers : Frame) (y : Yaml) (lc : String)
    (F : Frame) (trace : List (List Nat)) (hwf : papers.wf = true)
    (h : label_by_rules_aux papers y lc = Except.ok (F, trace)) :
    label_by_rules papers y lc = Except.ok F ∧
    F.index = papers.index ∧
    (∀ row ∈ F.rows, ∃ ls, getCellRow F.columns row lc = some (Cell.strs ls) ∧
      List.Sorted strLe ls ∧ ls.Nodup) ∧
    (∀ p : Nat, p < papers.rows.length →
      (∀ idxs ∈ trace, papers.index.getD p 0 ∉ idxs) →
      getCellRow F.columns (F.rows.getD p []) lc = some (Cell.strs [])) := by
  obtain ⟨i0, hcol, hinv0, hcells0⟩ := init_labels_spec papers lc hwf
  have h' : apply_rules_aux lc (init_labels papers lc) (parse_rules y) =
      Except.ok (F, trace) := h
  obtain ⟨hinvF, huntouched⟩ :=
    apply_rules_aux_spec (init_labels papers lc).columns papers.index lc i0 hcol
      (parse_rules y) (init_labels papers lc) F trace h' hinv0
  refine ⟨?_, hinvF.2.1, ?_, ?_⟩
  · unfold label_by_rules
    rw [h]
    rfl
  · intro row hrow
    rw [hinvF.1]
    exact hinvF.2.2.2.2 row hrow
  · intro p hp hpt
    rw [hinvF.1, huntouched p hpt]
    exact hcells0 p hp

/-- Witness for C4: a two-row table where one minmatch rule labels only
the second row; the first row keeps the empty label list and the result
frame keeps the index. -/
theorem C4_label_accumulation_witness :
    label_by_rules ⟨["title"], [7, 8],
        [[Cell.str "alpha"], [Cell.str "rule based planning"]]⟩
      (.list [.map [("label", .str "Planning"),
        ("terms", .list [.str "rule", .str "planning"]),
        ("match", .str "all")]]) "labels" =
      Except.ok ⟨["title", "labels"], [7, 8],
        [[Cell.str "alpha", Cell.strs []],
         [Cell.str "rule based planning", Cell.strs ["Planning"]]]⟩ ∧
    (⟨["title", "labels"], [7, 8],
        [[Cell.str "alpha", Cell.strs []],
         [Cell.str "rule based planning", Cell.strs ["Planning"]]]⟩ : Frame).index =
      (⟨["title"], [7, 8],
        [[Cell.str "alpha"], [Cell.str "rule based planning"]]⟩ : Frame).index ∧
    getCellRow ["title", "labels"] [Cell.str "alpha", Cell.strs []] "labels" =
      some (Cell.strs []) := by
  have h := C4_label_accumulation
    ⟨["title"], [7, 8], [[Cell.str "alpha"], [Cell.str "rule based planning"]]⟩
    (.list [.map [("label", .str "Planning"),
      ("terms", .list [.str "rule", .str "planning"]),
      ("match", .str "all")]]) "labels"
    ⟨["title", "labels"], [7, 8],
      [[Cell.str "alpha", Cell.strs []],
       [Cell.str "rule based planning", Cell.strs ["Planning"]]]⟩
    [[8]] (by decide) rfl
  exact ⟨h.1, h.2.1, h.2.2.2 0 (by decide) (by decide)⟩

theorem one_le_effective (ts : List String) (mm : Option Int) :
    (1 : Int) ≤ effective_min_match ts mm := by
  unfold effective_min_match
  exact le_max_left _ _

theorem minmatch_empty_not_le (ts : List String) (hts : ts = [])
    (mm : Option Int) (papers : Frame) (row : Row) (sc : List String) :
    ¬ (effective_min_match ts mm ≤
        (spec_distinct_match_count ts papers row sc : Int)) := by
  subst hts
  intro hle
  have h1 : (1 : Int) ≤ effective_min_match [] mm := one_le_effective [] mm
  have hc0 : spec_distinct_match_count [] papers row sc = 0 := rfl
  rw [hc0] at hle
  omega

/-- C5 counterexample: the source counts term entries with multiplicity,
not distinct terms.  With the duplicated term list rule, rule and
min-match 2, the single row `rule based` is matched by `by_keywords`
although only one distinct term appears, so the claimed
distinct-count-iff fails at this input. -/
theorem C5_counterexample :
    by_keywords ⟨["title"], [0], [[Cell.str "rule based"]]⟩ ["rule", "rule"]
        "minmatch" none (some 2) =
      Except.ok ⟨["title"], [0], [[Cell.str "rule based"]]⟩ ∧
    spec_distinct_match_count ["rule", "rule"]
        ⟨["title"], [0], [[Cell.str "rule based"]]⟩ [Cell.str "rule based"]
        ["title"] = 1 ∧
    ¬ ((2 : Int) ≤ (1 : Nat)) :=
  ⟨rfl, rfl, by decide⟩

/-- C5 amended: in minmatch mode a row matches iff the number of matching
term entries reaches the effective minimum; whenever the prepared term
list (non-blank terms, normalised, empties dropped) has no duplicates
this number equals the number of distinct terms that appear, so the
distinct-count reading of the claim holds for duplicate-free term lists,
and an absent minimum defaults to the term count. -/
theorem C5_minmatch_distinct_when_nodup (papers : Frame) (terms : List String)
    (columns : Option (List String)) (mm : Option Int) (sc : List String)
    (F : Frame) (hrc : resolve_columns papers columns = Except.ok sc)
    (h : by_keywords papers terms "minmatch" columns mm = Except.ok F)
    (hnodup : (base_terms ((terms.filter (fun t => pyStrip t ≠ "")).map
      normalise_string)).Nodup) :
    (∀ row ∈ papers.rows,
      (row ∈ F.rows ↔
        effective_min_match
            (base_terms ((terms.filter (fun t => pyStrip t ≠ "")).map
              normalise_string)) mm ≤
          (spec_distinct_match_count
            (base_terms ((terms.filter (fun t => pyStrip t ≠ "")).map
              normalise_string)) papers row sc : Int))) ∧
    (mm = none →
      base_terms ((terms.filter (fun t => pyStrip t ≠ "")).map
        normalise_string) ≠ [] →
      effective_min_match
          (base_terms ((terms.filter (fun t => pyStrip t ≠ "")).map
            normalise_string)) mm =
        ((base_terms ((terms.filter (fun t => pyStrip t ≠ "")).map
          normalise_string)).length : Int)) := by
  have hcount : ∀ row,
      spec_distinct_match_count
        (base_terms ((terms.filter (fun t => pyStrip t ≠ "")).map
          normalise_string)) papers row sc =
      match_count
        (base_terms ((terms.filter (fun t => pyStrip t ≠ "")).map
          normalise_string)) papers row sc := by
    intro row
    unfold spec_distinct_match_count match_count
    rw [List.dedup_eq_self.mpr hnodup]
  constructor
  · intro row hrow
    unfold by_keywords at h
    by_cases ht : terms.isEmpty = true
    · rw [if_pos ht] at h
      injection h with h
      subst h
      have hterms : terms = [] := List.isEmpty_iff.mp ht
      subst hterms
      constructor
      · intro hmem
        cases hmem
      · intro hle
        exact absurd hle (minmatch_empty_not_le _ rfl mm papers row sc)
    · rw [if_neg ht, hrc] at h
      dsimp only at h
      by_cases hnt : (((terms.filter (fun t => pyStrip t ≠ "")).map
          normalise_string)).isEmpty = true
      · rw [if_pos hnt] at h
        injection h with h
        subst h
        have hntnil : ((terms.filter (fun t => pyStrip t ≠ "")).map
            normalise_string) = [] := List.isEmpty_iff.mp hnt
        constructor
        · intro hmem
          cases hmem
        · intro hle
          have hts : base_terms ((terms.filter (fun t => pyStrip t ≠ "")).map
              normalise_string) = [] := by
            unfold base_terms
            rw [hntnil]
            rfl
          exact absurd hle (minmatch_empty_not_le _ hts mm papers row sc)
      · rw [if_neg hnt] at h
        rw [if_neg (show ¬("minmatch" : String) = "lemma" by decide)] at h
        rw [if_pos (show ("minmatch" : String) = "minmatch" from rfl)] at h
        injection h with h
        subst h
        rw [mem_filterFrame_rows]
        unfold minimum_match_matches
        rw [hcount row]
        constructor
        · rintro ⟨-, hpred⟩
          exact of_decide_eq_true hpred
        · intro hle
          exact ⟨hrow, decide_eq_true hle⟩
  · intro hmmnone hne
    subst hmmnone
    unfold effective_min_match
    dsimp only
    have h1 : 1 ≤ (base_terms ((terms.filter (fun t => pyStrip t ≠ "")).map
        normalise_string)).length := List.length_pos.mpr hne
    rw [max_eq_right (by exact_mod_cast h1)]

/-- Witness for the amended C5 at the scenario query: terms rule and
planning with min-match 2 keep exactly the row containing both. -/
theorem C5_minmatch_distinct_when_nodup_witness :
    [Cell.str "rule based planning"] ∈
      (⟨["title"], [0], [[Cell.str "rule based planning"]]⟩ : Frame).rows ∧
    ¬ ([Cell.str "rule based"] ∈
      (⟨["title"], [0], [[Cell.str "rule based planning"]]⟩ : Frame).rows) := by
  have h := C5_minmatch_distinct_when_nodup
    ⟨["title"], [0, 1], [[Cell.str "rule based planning"], [Cell.str "rule based"]]⟩
    ["rule", "planning"] none (some 2) ["title"]
    ⟨["title"], [0], [[Cell.str "rule based planning"]]⟩ rfl rfl (by decide)
  constructor
  · exact (h.1 [Cell.str "rule based planning"] (by decide)).mpr (by decide)
  · intro hmem
    exact absurd ((h.1 [Cell.str "rule based"] (by decide)).mp hmem) (by decide)

/-- The token set the lemma matcher builds column by column equals the
tokens of the concatenated searchable-column text. -/
theorem pySplit_row_text (f : Frame) (row : Row) (cols : List String) :
    pySplit (row_text f row cols) =
      (cols.map (fun c => pySplit (normalise_text (rowGet f row c)))).flatten := by
  unfold row_text
  rw [pySplit_pyJoin_space, List.map_map]
  rfl

/-- C1 counterexample: under lemma mode the rule-set with label AI and
terms deep learning / gan does NOT assign the label to a paper whose
abstract mentions deep learning techniques: the multi-word term can never
equal a single token of the haystack set and gan does not occur, so the
label list stays empty — the claim asserts the label is assigned. -/
theorem C1_counterexample :
    label_by_rules
        ⟨["abstract"], [0],
          [[Cell.str "We explore deep learning techniques for BIM coordination."]]⟩
        (.map [("rules", .list [.map [("label", .str "AI"),
          ("any", .list [.str "deep learning", .str "gan"])]])]) "labels" =
      Except.ok ⟨["abstract", "labels"], [0],
        [[Cell.str "We explore deep learning techniques for BIM coordination.",
          Cell.strs []]]⟩ ∧
    ¬ ("AI" ∈ ([] : List String)) :=
  ⟨rfl, by decide⟩

/-- C1 amended: in lemma mode a row is kept iff some term is non-blank
and its normalised (lemmatized) form occurs as a whole token among the
whitespace-split tokens of the concatenated normalised searchable-column
text.  A multi-word term therefore never matches (its normalised form
retains an internal space), which is what refutes the claim's scenario. -/
theorem C1_lemma_mode_whole_token (papers : Frame) (terms : List String)
    (columns : Option (List String)) (mm : Option Int) (sc : List String)
    (F : Frame) (hrc : resolve_columns papers columns = Except.ok sc)
    (h : by_keywords papers terms "lemma" columns mm = Except.ok F) :
    ∀ row ∈ papers.rows,
      (row ∈ F.rows ↔ ∃ t ∈ terms, pyStrip t ≠ "" ∧ normalise_string t ≠ "" ∧
        normalise_string t ∈ pySplit (row_text papers row sc)) := by
  intro row hrow
  unfold by_keywords at h
  by_cases ht : terms.isEmpty = true
  · rw [if_pos ht] at h
    injection h with h
    subst h
    have hterms : terms = [] := List.isEmpty_iff.mp ht
    subst hterms
    constructor
    · intro hmem
      cases hmem
    · rintro ⟨t, htmem, -⟩
      cases htmem
  · rw [if_neg ht, hrc] at h
    dsimp only at h
    by_cases hnt : (((terms.filter (fun t => pyStrip t ≠ "")).map
        normalise_string)).isEmpty = true
    · rw [if_pos hnt] at h
      injection h with h
      subst h
      have hfil : terms.filter (fun t => pyStrip t ≠ "") = [] :=
        List.map_eq_nil_iff.mp (List.isEmpty_iff.mp hnt)
      constructor
      · intro hmem
        cases hmem
      · rintro ⟨t, htmem, hstrip, -, -⟩
        exfalso
        have hmem2 : t ∈ terms.filter (fun t => pyStrip t ≠ "") :=
          List.mem_filter.mpr ⟨htmem, by simpa using hstrip⟩
        rw [hfil] at hmem2
        cases hmem2
    · rw [if_neg hnt, if_pos (show ("lemma" : String) = "lemma" from rfl)] at h
      injection h with h
      subst h
      rw [mem_filterFrame_rows]
      unfold lemma_matches
      dsimp only
      simp only [pySplit_row_text]
      constructor
      · rintro ⟨-, hpred⟩
        rw [List.any_eq_true] at hpred
        obtain ⟨t', ht'mem, hcont⟩ := hpred
        unfold base_terms at ht'mem
        rw [List.mem_filter] at ht'mem
        obtain ⟨ht'map, ht'ne⟩ := ht'mem
        rw [List.mem_map] at ht'map
        obtain ⟨t0, ht0fil, rfl⟩ := ht'map
        rw [List.mem_filter] at ht0fil
        refine ⟨t0, ht0fil.1, by simpa using ht0fil.2, by simpa using ht'ne, ?_⟩
        simpa [List.contains, List.elem_iff] using hcont
      · rintro ⟨t, htmem, hstrip, hne, hmem⟩
        refine ⟨hrow, ?_⟩
        rw [List.any_eq_true]
        refine ⟨normalise_string t, ?_, ?_⟩
        · unfold base_terms
          rw [List.mem_filter]
          refine ⟨List.mem_map.mpr ⟨t, List.mem_filter.mpr
            ⟨htmem, by simpa using hstrip⟩, rfl⟩, by simpa using hne⟩
        · simpa [List.contains, List.elem_iff] using hmem

/-- Witness for the amended C1: the single-token term gan matches a row
whose text holds the token gan. -/
theorem C1_lemma_mode_whole_token_witness :
    [Cell.str "uses gan models"] ∈
      (⟨["abstract"], [0], [[Cell.str "uses gan models"]]⟩ : Frame).rows := by
  have h := C1_lemma_mode_whole_token
    ⟨["abstract"], [0], [[Cell.str "uses gan models"]]⟩ ["gan"] none none
    ["abstract"] ⟨["abstract"], [0], [[Cell.str "uses gan models"]]⟩ rfl rfl
  exact (h [Cell.str "uses gan models"] (by decide)).mpr
    ⟨"gan", by decide, by decide, by decide, by decide⟩

/-! ### Lemmas for the object-level (heap) embedding -/

theorem apply_rules_heap_preserves (lc : String) (fid : Nat) (rules : List Rule) :
    ∀ (st st' : Heap), apply_rules_heap lc fid rules st = Except.ok st' →
      ∀ j, j ≠ fid → j < st.length → st'[j]? = st[j]? := by
  induction rules with
  | nil =>
    intro st st' h j hj hjl
    simp only [apply_rules_heap, Except.ok.injEq] at h
    subst h
    rfl
  | cons rule rest ih =>
    intro st st' h j hj hjl
    unfold apply_rules_heap at h
    dsimp only at h
    rcases hbk : by_keywords ((st.get? fid).getD ⟨[], [], []⟩) rule.terms
        rule.mode rule.columns rule.min_match with e | subset
    all_goals rw [hbk] at h
    all_goals dsimp only at h
    · cases h
    · have hlen : j < (hSet (alloc st subset).1 fid
          (subset.index.foldl (updLabel lc rule.label)
            ((st.get? fid).getD ⟨[], [], []⟩))).length := by
        simp only [hSet, alloc, List.length_set, List.length_append]
        omega
      rw [ih _ _ h j hj hlen]
      simp only [hSet, alloc]
      rw [List.getElem?_set_ne (by omega : fid ≠ j)]
      rw [List.getElem?_append_left hjl]

/-- C9: neither `by_keywords` nor `label_by_rules` mutates the frame
object handed in by the caller.  In the object-level embedding every
frame the caller owns (every address below the initial heap size) is
unchanged after a successful call, and the returned frame is a freshly
allocated object, distinct from the input. -/
theorem C9_no_caller_mutation :
    (∀ (h : Heap) (pid : Nat) (terms : List String) (mode : String)
        (columns : Option (List String)) (mm : Option Int) (h' : Heap)
        (rid : Nat), pid < h.length →
        by_keywords_heap h pid terms mode columns mm = Except.ok (h', rid) →
        (∀ j, j < h.length → h'[j]? = h[j]?) ∧ rid ≠ pid) ∧
    (∀ (h : Heap) (pid : Nat) (y : Yaml) (lc : String) (h' : Heap) (rid : Nat),
        pid < h.length →
        label_by_rules_heap h pid y lc = Except.ok (h', rid) →
        (∀ j, j < h.length → h'[j]? = h[j]?) ∧ rid ≠ pid) := by
  constructor
  · intro h pid terms mode columns mm h' rid hpid hok
    unfold by_keywords_heap at hok
    dsimp only at hok
    rcases hbk : by_keywords ((h.get? pid).getD ⟨[], [], []⟩) terms mode columns
        mm with e | res
    all_goals rw [hbk] at hok
    all_goals simp only [Except.map, Except.ok.injEq, Prod.mk.injEq, alloc] at hok
    · cases hok
    · obtain ⟨rfl, rfl⟩ := hok
      refine ⟨?_, by omega⟩
      intro j hj
      exact List.getElem?_append_left hj
  · intro h pid y lc h' rid hpid hok
    unfold label_by_rules_heap at hok
    dsimp only at hok
    rcases happ : apply_rules_heap lc (alloc h ((h.get? pid).getD ⟨[], [], []⟩)).2
        (parse_rules y)
        (hSet (alloc h ((h.get? pid).getD ⟨[], [], []⟩)).1
          (alloc h ((h.get? pid).getD ⟨[], [], []⟩)).2
          (init_labels ((h.get? pid).getD ⟨[], [], []⟩) lc)) with e | hf
    all_goals rw [happ] at hok
    all_goals simp only [Except.map, Except.ok.injEq, Prod.mk.injEq] at hok
    · cases hok
    · obtain ⟨rfl, rfl⟩ := hok
      simp only [alloc] at happ ⊢
      refine ⟨?_, by omega⟩
      intro j hj
      have hjfid : j ≠ h.length := by omega
      have hjlen : j < (hSet (h ++ [(h.get? pid).getD ⟨[], [], []⟩]) h.length
          (init_labels ((h.get? pid).getD ⟨[], [], []⟩) lc)).length := by
        simp only [hSet, List.length_set, List.length_append]
        omega
      rw [apply_rules_heap_preserves lc h.length (parse_rules y) _ _ happ j hjfid hjlen]
      simp only [hSet]
      rw [List.getElem?_set_ne (by omega : h.length ≠ j)]
      rw [List.getElem?_append_left hj]

/-- Witness for C9 on a one-frame heap: both calls leave the caller's
frame at address 0 untouched and return the fresh address 1. -/
theorem C9_no_caller_mutation_witness :
    (([⟨["title"], [0], [[Cell.str "gan model"]]⟩,
       ⟨["title"], [0], [[Cell.str "gan model"]]⟩] : Heap)[0]? =
      ([⟨["title"], [0], [[Cell.str "gan model"]]⟩] : Heap)[0]? ∧ (1 : Nat) ≠ 0) ∧
    (([⟨["title"], [0], [[Cell.str "gan model"]]⟩,
       ⟨["title", "labels"], [0], [[Cell.str "gan model", Cell.strs []]]⟩] : Heap)[0]? =
      ([⟨["title"], [0], [[Cell.str "gan model"]]⟩] : Heap)[0]? ∧ (1 : Nat) ≠ 0) := by
  constructor
  · have h := C9_no_caller_mutation.1 [⟨["title"], [0], [[Cell.str "gan model"]]⟩]
      0 ["gan"] "lemma" none none
      [⟨["title"], [0], [[Cell.str "gan model"]]⟩,
       ⟨["title"], [0], [[Cell.str "gan model"]]⟩] 1 (by decide) rfl
    exact ⟨h.1 0 (by decide), h.2⟩
  · have h := C9_no_caller_mutation.2 [⟨["title"], [0], [[Cell.str "gan model"]]⟩]
      0 (.list []) "labels"
      [⟨["title"], [0], [[Cell.str "gan model"]]⟩,
       ⟨["title", "labels"], [0], [[Cell.str "gan model", Cell.strs []]]⟩] 1
      (by decide) rfl
    exact ⟨h.1 0 (by decide), h.2⟩

end DesignMetrics
